import Mathlib

/-!
Verification of the `sest` log-to-event bridge (Go sources `log_file.go`,
`main.go`) against its natural-language specification.

Bytes are modelled as `Nat`, byte buffers as `List Nat`, the contents of a
file at the moment of a `stat`/`read` as a `List Nat`, and Go's `int64`
offsets as `Int`.  Library calls of the source (`os.File.Read`, `regexp`,
`text/template`) are modelled by their documented behaviour at the call
sites the source uses.
-/

set_option linter.unusedVariables false

/-- A byte value, modelled as `Nat`. -/
abbrev Byte := Nat

/-- State of a `LogFile` from `log_file.go`: the open handle's current read
position (where the next `file.Read` starts) and the tracked byte `offset`
field (an `int64` in the source, hence `Int`). -/
structure LogFile where
  pos : Nat
  offset : Int
  deriving Repr, DecidableEq

/-- Model of `LogFile.ReadNewLines` (`log_file.go` lines 39-53), parameterised
by the outcome of the single underlying `f.file.Read(buf)` call: `n` is the
number of bytes that call actually reads (a short read is allowed by its
contract) and `rerr` is true when it fails with a non-`io.EOF` error.
The fresh `stat` is modelled by the `file` contents at that moment, so
`stat.Size()` is `file.length`; the stat itself succeeds.

Following the source line by line:
* `bytesToRead := stat.Size() - f.offset`;
* `buf := make([]byte, bytesToRead)` panics at runtime when `bytesToRead`
  is negative — modelled by the result `none`;
* the read fills `buf[0:n]` with the bytes at the handle position, the rest
  of `buf` keeps the zero bytes `make` put there;
* `f.offset = stat.Size()` is executed unconditionally after the read;
* a non-EOF read error then makes the call return `(nil, err)` — modelled
  by `some (none, f')` — with the offset already moved. -/
def ReadNewLinesGen (file : List Byte) (f : LogFile) (n : Nat) (rerr : Bool) :
    Option (Option (List Byte) × LogFile) :=
  let size : Int := file.length
  let bytesToRead : Int := size - f.offset
  if bytesToRead < 0 then
    none
  else
    let btr := bytesToRead.toNat
    let buf := (file.drop f.pos).take n ++ List.replicate (btr - n) 0
    let f' : LogFile := { pos := f.pos + n, offset := size }
    if rerr then some (none, f') else some (some buf, f')

/-- Deterministic model of `ReadNewLines` for an ordinary local file: the
single `Read` call returns every requested byte up to end of file, i.e.
`n = min bytesToRead (size - pos)`, and no non-EOF error occurs. -/
def ReadNewLines (file : List Byte) (f : LogFile) : Option (List Byte × LogFile) :=
  let size := file.length
  let btr : Int := (size : Int) - f.offset
  match ReadNewLinesGen file f (min btr.toNat (size - f.pos)) false with
  | some (some buf, f') => some (buf, f')
  | _ => none

/-- Model of `GetOffset` (`log_file.go` lines 55-57). -/
def GetOffset (f : LogFile) : Int := f.offset

/-- One step of the tail workload for a single tracked file: either the
writer appends bytes to the file, or a write notification makes the pipeline
call `ReadNewLines` on the cursor (`eventLoop`/`handleWrite`, `main.go`). -/
inductive Op where
  | app (bs : List Byte)
  | read
  deriving Repr

/-- Trace state for one tracked file: current file contents, the cursor, the
buffers returned by the reads so far, and the byte ranges
`[offset before, offset after)` those reads covered. -/
structure TraceState where
  file : List Byte
  cur : LogFile
  outs : List (List Byte)
  ranges : List (Nat × Nat)
  deriving Repr

/-- The cursor as `createLogFileList` builds it (`NewLogFile(filename, 0)`,
`main.go` line 235) on a file that is empty when tracking starts. -/
def initState : TraceState := ⟨[], ⟨0, 0⟩, [], []⟩

def stepOp (st : TraceState) : Op → TraceState
  | .app bs => { st with file := st.file ++ bs }
  | .read =>
    match ReadNewLines st.file st.cur with
    | some (buf, f') =>
      { st with
        cur := f'
        outs := st.outs ++ [buf]
        ranges := st.ranges ++ [(st.cur.offset.toNat, f'.offset.toNat)] }
    | none => st

def runTrace (ops : List Op) : TraceState := ops.foldl stepOp initState

/-- All bytes the writer appends over a trace, in order. -/
def appendedBytes : List Op → List Byte
  | [] => []
  | .app bs :: ops => bs ++ appendedBytes ops
  | .read :: ops => appendedBytes ops

/-- The ranges `[a₁,b₁) [a₂,b₂) …` are contiguous: each begins where the
previous one ends, the first begins at `a`, the last ends at `b`. -/
def ChainFrom (a : Nat) : List (Nat × Nat) → Nat → Prop
  | [], b => b = a
  | (x, y) :: rs, b => x = a ∧ a ≤ y ∧ ChainFrom y rs b

/-- Cursor invariant maintained by the trace: handle position and tracked
offset agree, never exceed the file size, the returned buffers concatenate to
exactly the file prefix below the offset, and the returned ranges tile
`[0, offset)` contiguously. -/
def TraceInv (st : TraceState) : Prop :=
  st.cur.offset = (st.cur.pos : Int) ∧ st.cur.pos ≤ st.file.length ∧
  st.outs.flatten = st.file.take st.cur.pos ∧
  ChainFrom 0 st.ranges st.cur.pos

/-- The claim of C2 as stated: whenever `ReadNewLines` completes its stat and
its underlying read returns `n` bytes, the tracked offset advances by exactly
`n` — in particular it never moves past the last byte actually read. -/
def OffsetAdvancesByBytesRead : Prop :=
  ∀ (file : List Byte) (f : LogFile) (n : Nat) (rerr : Bool)
    (res : Option (List Byte)) (f' : LogFile),
    (n : Int) ≤ (file.length : Int) - f.offset →
    n ≤ file.length - f.pos →
    ReadNewLinesGen file f n rerr = some (res, f') →
    f'.offset = f.offset + n

/-- The claim of C3 as stated: for every cursor state in which the statted
size is strictly smaller than the tracked offset, `ReadNewLines` handles the
case totally — it completes with a well-defined result instead of crashing. -/
def ShrinkHandledTotally : Prop :=
  ∀ (file : List Byte) (f : LogFile),
    (file.length : Int) < f.offset → (ReadNewLines file f).isSome

/-- Single-byte character classes of the compiled patterns
(`regexp.Compile` at `main.go` line 190); `word` is the class `\w`,
`any` is `.` (any byte except newline). -/
inductive CharCls where
  | lit (c : Byte)
  | word
  | any
  deriving Repr, DecidableEq

/-- Class membership; `\w` is `[0-9A-Za-z_]`. -/
def CharCls.mem (c : CharCls) (b : Byte) : Bool :=
  match c with
  | .lit c => b == c
  | .word => (48 ≤ b && b ≤ 57) || (65 ≤ b && b ≤ 90) || (97 ≤ b && b ≤ 122) || b == 95
  | .any => !(b == 10)

/-- Abstract syntax of compiled patterns: the fragment of Go `regexp`
syntax the configuration's rules use. -/
inductive RE where
  | eps
  | ch (c : CharCls)
  | cat (a b : RE)
  | alt (a b : RE)
  | star (r : RE)
  deriving Repr, DecidableEq

/-- Backtracking matcher with the leftmost-first, greedy semantics Go's
`regexp` package guarantees: `matchK fuel r s k` matches `r` at the start of
`s` and hands each candidate remainder to the continuation `k`, returning
the first success in preference order; `star` prefers iterating.  `fuel`
bounds the recursion depth. -/
def matchK : Nat → RE → List Byte → (List Byte → Option (List Byte)) →
    Option (List Byte)
  | 0, _, _, _ => none
  | _ + 1, .eps, s, k => k s
  | _ + 1, .ch _, [], _ => none
  | _ + 1, .ch c, b :: s, k => if c.mem b then k s else none
  | fuel + 1, .cat a b, s, k => matchK fuel a s (fun s1 => matchK fuel b s1 k)
  | fuel + 1, .alt a b, s, k =>
    match matchK fuel a s k with
    | some t => some t
    | none => matchK fuel b s k
  | fuel + 1, .star r, s, k =>
    match matchK fuel r s (fun s1 => matchK fuel (.star r) s1 k) with
    | some t => some t
    | none => k s

/-- Structural size of a pattern, used to budget matcher fuel. -/
def reSize : RE → Nat
  | .eps => 1
  | .ch _ => 1
  | .cat a b => reSize a + reSize b + 1
  | .alt a b => reSize a + reSize b + 1
  | .star r => reSize r + 1

/-- Length of the leftmost-first match of `r` at the start of `s`, when `r`
matches at this position. -/
def matchLen (r : RE) (s : List Byte) : Option Nat :=
  match matchK ((reSize r + 1) * (s.length + 2)) r s some with
  | some rest => some (s.length - rest.length)
  | none => none

/-- All non-overlapping leftmost-first matches of `r` in the buffer, as
`[start, stop)` ranges in absolute byte positions, left to right: scan from
the start, record each match, resume after it (one byte further for an empty
match) — the semantics of the source's `FindAllSubmatchIndex(lines, -1)`
call (`main.go` line 120), with limit `-1` meaning all matches. -/
def findAllAux (r : RE) : Nat → List Byte → Nat → List (Nat × Nat)
  | 0, _, _ => []
  | _ + 1, [], i =>
    match matchLen r [] with
    | some _ => [(i, i)]
    | none => []
  | fuel + 1, b :: s, i =>
    match matchLen r (b :: s) with
    | none => findAllAux r fuel s (i + 1)
    | some 0 => (i, i) :: findAllAux r fuel s (i + 1)
    | some (n + 1) => (i, i + (n + 1)) :: findAllAux r fuel (s.drop n) (i + (n + 1))

def findAllMatches (r : RE) (buf : List Byte) : List (Nat × Nat) :=
  findAllAux r (buf.length + 1) buf 0

/-- A parsed node of the source's `text/template` templates: literal text,
a call of the one registered helper `timestamp` (`templateFunctions`,
`main.go` lines 71-73), the bare dot, or a field access `.Name` — evaluated
against the `nil` data the source passes to `Execute`. -/
inductive TplNode where
  | text (bs : List Byte)
  | funcTimestamp
  | dot
  | field (name : List Byte)
  deriving Repr, DecidableEq

/-- Split a byte list at the first occurrence of the two-byte token
`c1 c2`, returning the bytes before and after it. -/
def splitAtToken (c1 c2 : Byte) : List Byte → Option (List Byte × List Byte)
  | [] => none
  | [_] => none
  | a :: b :: rest =>
    if a == c1 && b == c2 then some ([], rest)
    else
      match splitAtToken c1 c2 (b :: rest) with
      | some (pre, post) => some (a :: pre, post)
      | none => none

/-- Bytes of the identifier `timestamp`. -/
def timestampName : List Byte := [116, 105, 109, 101, 115, 116, 97, 109, 112]

/-- Byte allowed in a field name after the dot. -/
def isIdentByte (b : Byte) : Bool :=
  (48 ≤ b && b ≤ 57) || (65 ≤ b && b ≤ 90) || (97 ≤ b && b ≤ 122) || b == 95

/-- Classify the bytes between the action braces the way the source's
template environment does: the registered helper `timestamp` is a valid
function call, a leading dot is a data reference (bare dot or a field
access with an identifier name); anything else fails to parse (an action
the parser rejects, e.g. an undefined function). -/
def classifyAction (bs : List Byte) : Option TplNode :=
  if bs = timestampName then some .funcTimestamp
  else
    match bs with
    | 46 :: rest =>
      if rest.isEmpty then some .dot
      else if rest.all isIdentByte then some (.field rest) else none
    | _ => none

/-- Parser for the template source, fuelled by input length: literal text up
to the next `\x7b\x7b`, then an action closed by `\x7d\x7d` (an unclosed
action is a parse error), then the rest.  Models the `Parse` call of
`main.go` line 123 over the fragment of `text/template` the source uses. -/
def parseTemplateAux : Nat → List Byte → Option (List TplNode)
  | 0, _ => none
  | fuel + 1, bs =>
    match splitAtToken 123 123 bs with
    | none => some [.text bs]
    | some (pre, rest) =>
      match splitAtToken 125 125 rest with
      | none => none
      | some (act, rest2) =>
        match classifyAction act, parseTemplateAux fuel rest2 with
        | some node, some nodes => some (.text pre :: node :: nodes)
        | _, _ => none

def parseTemplate (bs : List Byte) : Option (List TplNode) :=
  parseTemplateAux (bs.length + 1) bs

/-- Stand-in for one rendering of the `timestamp` helper
(`getCurrentTimestamp` formats the wall clock, which is outside the model). -/
def timestampBytes : List Byte := [84, 83]

/-- Bytes of `<no value>`, what `text/template` prints for the bare dot on
`nil` data. -/
def noValueBytes : List Byte := [60, 110, 111, 32, 118, 97, 108, 117, 101, 62]

/-- Model of `Execute` over the parsed nodes with `nil` data, as `main.go` line 129
calls it: text is written to the buffer, `timestamp` writes one rendered
timestamp, the bare dot writes `<no value>`, and a field access on `nil`
data stops execution with an error, leaving the output written so far in
the buffer.  The `Bool` is `false` when execution returned the error the
source ignores. -/
def execNodes : List TplNode → List Byte × Bool
  | [] => ([], true)
  | .text bs :: ns =>
    match execNodes ns with
    | (out, ok) => (bs ++ out, ok)
  | .funcTimestamp :: ns =>
    match execNodes ns with
    | (out, ok) => (timestampBytes ++ out, ok)
  | .dot :: ns =>
    match execNodes ns with
    | (out, ok) => (noValueBytes ++ out, ok)
  | .field _ :: _ => ([], false)

/-- Model of `regexp.Expand` at the call site of `main.go` line 122:
occurrences of the group reference `$0` in the rule's template are replaced
by the bytes the match covered; other bytes are copied verbatim.  (Further
group references work alike; `$0` is the one the modelled rules use.) -/
def expandTemplate (matched : List Byte) : List Byte → List Byte
  | [] => []
  | 36 :: 48 :: rest => matched ++ expandTemplate matched rest
  | b :: rest => b :: expandTemplate matched rest

/-- An `event` extraction rule (`main.go` lines 61-66): compiled pattern,
loaded template file contents, and the two tags. -/
structure Event where
  Regex : RE
  Template : List Byte
  EventType : String
  ChannelName : String
  deriving Repr, DecidableEq

/-- Outcome of one iteration of the per-match loop in `handleWrite`
(`main.go` lines 120-131): either the expanded template failed to parse —
the error is logged and the match skipped by `continue` — or a payload was
logged; `renderOk` is `false` when `t.Execute` returned an error, which the
source ignores, leaving the partial output as the logged payload. -/
inductive MatchResult where
  | parseFailure
  | payload (out : List Byte) (renderOk : Bool)
  deriving Repr, DecidableEq

/-- Body of the per-match loop for the match range `m` over `lines`. -/
def processMatch (ev : Event) (lines : List Byte) (m : Nat × Nat) : MatchResult :=
  let matched := (lines.drop m.1).take (m.2 - m.1)
  let step := expandTemplate matched ev.Template
  match parseTemplate step with
  | none => .parseFailure
  | some nodes =>
    match execNodes nodes with
    | (out, ok) => .payload out ok

/-- The per-rule loop of `handleWrite`: one `MatchResult` per
non-overlapping match, in match order. -/
def runRule (ev : Event) (lines : List Byte) : List MatchResult :=
  (findAllMatches ev.Regex lines).map (processMatch ev lines)

/-- The payloads a result list actually logs/forwards (a parse failure
contributes none). -/
def payloadsOf (rs : List MatchResult) : List (List Byte) :=
  rs.filterMap fun r =>
    match r with
    | .payload out _ => some out
    | .parseFailure => none

/-- Observable outcome of one `handleWrite` call (`main.go` lines 110-133):
the rules entered (the per-rule `Looking for event` log line, in slice
order), the per-rule match results, the cursor afterwards, and whether the
incremental read had failed. -/
structure HWResult where
  invoked : List String
  results : List (String × List MatchResult)
  cursor : LogFile
  readFailed : Bool
  deriving Repr, DecidableEq

/-- Model of `handleWrite` (`main.go` lines 110-133) for a registered file,
parameterised like `ReadNewLinesGen` by the underlying read outcome.  The
source discards the read error (`lines, _ := file.ReadNewLines()`) and runs
every rule of the slice over `lines`, which is `nil` — scanned as the empty
buffer — when the read failed; `none` models the propagated panic of the
shrink case. -/
def handleWriteGen (events : List Event) (file : List Byte) (f : LogFile)
    (n : Nat) (rerr : Bool) : Option HWResult :=
  match ReadNewLinesGen file f n rerr with
  | none => none
  | some (res, f') =>
    let lines := res.getD []
    some { invoked := events.map (·.EventType)
           results := events.map fun ev => (ev.EventType, runRule ev lines)
           cursor := f'
           readFailed := res.isNone }

/-- One entry of `cfg.Events` (`main.go` lines 28-33) after the startup
work `createEventList` performs on it: `Src = none` models a source pattern
`regexp.Compile` rejects, `Dest = none` a template file `ioutil.ReadFile`
cannot read; otherwise the compiled pattern and the loaded template bytes. -/
structure EventCfg where
  Src : Option RE
  Dest : Option (List Byte)
  EventType : String
  ChannelName : String
  deriving Repr, DecidableEq

/-- Model of `createEventList` (`main.go` lines 184-211).  `cfg.Events` is a
Go map and the loop is `for key, eventCfg := range cfg.Events`; the model
takes the key-value sequence in whatever order that `range` produces.  An
entry whose pattern failed to compile or whose template file could not be
read is logged and dropped; the rest are appended in iteration order. -/
def appendEvent (acc : List Event) (kv : String × EventCfg) : List Event :=
  match kv.2.Src, kv.2.Dest with
  | some re, some tpl => acc ++ [⟨re, tpl, kv.2.EventType, kv.2.ChannelName⟩]
  | _, _ => acc

def createEventList (iter : List (String × EventCfg)) : List Event :=
  iter.foldl appendEvent []

/-- The rule an iteration entry contributes, if it survives validation. -/
def eventOfCfg (kv : String × EventCfg) : Option Event :=
  match kv.2.Src, kv.2.Dest with
  | some re, some tpl => some ⟨re, tpl, kv.2.EventType, kv.2.ChannelName⟩
  | _, _ => none

/-- Model of `createLogFileList` (`main.go` lines 213-244), returning the
registry's key list: the explicit file list and the enumerated directory
entries are concatenated; the global include pattern — when it compiled,
`filter?` is `none` otherwise — is applied to that combined list; each
remaining path that opens successfully (`openable`) becomes a registry key,
duplicate paths collapsing onto one map key. -/
def createLogFileList (files dirFiles : List String)
    (filter? : Option (String → Bool)) (openable : String → Bool) : List String :=
  let filenames := files ++ dirFiles
  let filtered :=
    match filter? with
    | some p => filenames.filter p
    | none => filenames
  (filtered.filter openable).dedup

/-- The pattern `a b c …` as a chained concatenation of byte literals. -/
def litRE (bs : List Byte) : RE :=
  bs.foldr (fun b r => RE.cat (RE.ch (.lit b)) r) RE.eps

/-- The pattern `r+` as `r r*`. -/
def plusRE (r : RE) : RE := RE.cat r (RE.star r)

/-- The spec's example pattern `ERROR: (\w+)` (the group changes captures,
not which ranges match). -/
def errPattern : RE :=
  RE.cat (litRE [69, 82, 82, 79, 82, 58, 32]) (plusRE (RE.ch .word))

/-- The spec's example buffer `ERROR: disk\nERROR: net\n`. -/
def errBuf : List Byte :=
  [69, 82, 82, 79, 82, 58, 32, 100, 105, 115, 107, 10,
   69, 82, 82, 79, 82, 58, 32, 110, 101, 116, 10]

/-- A rule for `errPattern` whose template is the bare group reference,
so each match renders to its own text. -/
def errEv : Event := ⟨errPattern, [36, 48], "err", "chan"⟩

/-- The pattern `\w+`. -/
def wordPlus : RE := plusRE (RE.ch .word)

/-- The template `\x7b\x7b$0\x7d\x7d`: after `Expand`, the matched text
becomes the body of the action, so whether the template parses depends on
the individual match. -/
def braceTpl : List Byte := [123, 123, 36, 48, 125, 125]

/-- Rule used in the match-isolation demonstration. -/
def demoEv : Event := ⟨wordPlus, braceTpl, "demo", "chan"⟩

/-- Buffer `timestamp bogus timestamp`: three `\w+` matches; the middle one
expands to an action naming an undefined function, a parse failure. -/
def demoBuf : List Byte :=
  timestampName ++ [32] ++ [98, 111, 103, 117, 115] ++ [32] ++ timestampName

/-- The template `pre-\x7b\x7b.$0\x7d\x7d`: it parses for a `\w+` match
(field access), but `Execute` on `nil` data then fails after writing the
literal prefix. -/
def renderFailTpl : List Byte :=
  [112, 114, 101, 45, 123, 123, 46, 36, 48, 125, 125]

/-- Rule used in the render-failure counterexample. -/
def renderFailEv : Event := ⟨wordPlus, renderFailTpl, "rf", "chan"⟩

/-- Two config entries that both validate, distinguishable by tag. -/
def cfgA : EventCfg := ⟨some RE.eps, some [], "A", "c"⟩

def cfgB : EventCfg := ⟨some RE.eps, some [], "B", "c"⟩

/-- The spec's global filter example `\.log$` as a path predicate. -/
def endsWithDotLog (s : String) : Bool :=
  s.data.reverse.take 4 == ['g', 'o', 'l', '.']

/-- The claim of C4 as stated: when the incremental read of a write
notification fails, the extraction step returns without invoking any rule. -/
def ReadFailureSkipsRules : Prop :=
  ∀ (events : List Event) (file : List Byte) (f : LogFile) (n : Nat)
    (rerr : Bool) (r : HWResult),
    handleWriteGen events file f n rerr = some r →
    r.readFailed = true → r.invoked = []

/-- The claim of C5 as stated (order part): the rule pass order is a
function of the configured rule set alone — any two iteration orders Go's
`range` may produce over the same `cfg.Events` map yield the same rule
slice, so every run uses the same deterministic order. -/
def RuleOrderDeterministic : Prop :=
  ∀ p q : List (String × EventCfg), p.Perm q →
    createEventList p = createEventList q

/-- The claim of C7 as stated (failure part): a match for which the template
fails — to parse or to render — is skipped, contributing no logged payload. -/
def FailedMatchSkipped : Prop :=
  ∀ (ev : Event) (lines out : List Byte),
    MatchResult.payload out false ∉ runRule ev lines

/-- The claim of C8 as stated: every openable path of the explicit file
list reaches the registry even when it does not match the global include
pattern. -/
def ExplicitFilesBypassFilter : Prop :=
  ∀ (files dirFiles : List String) (p : String → Bool)
    (openable : String → Bool) (fp : String),
    fp ∈ files → openable fp = true →
    fp ∈ createLogFileList files dirFiles (some p) openable

theorem ReadNewLinesGen_eq (file : List Byte) (f : LogFile) (n : Nat) (rerr : Bool)
    (h : ¬ ((file.length : Int) - f.offset < 0)) :
    ReadNewLinesGen file f n rerr =
      (if rerr then some (none, ⟨f.pos + n, (file.length : Int)⟩)
       else some (some ((file.drop f.pos).take n ++
         List.replicate (((file.length : Int) - f.offset).toNat - n) 0),
         ⟨f.pos + n, (file.length : Int)⟩)) := by
  simp only [ReadNewLinesGen, if_neg h]

theorem ReadNewLines_shrink (file : List Byte) (f : LogFile)
    (h : (file.length : Int) - f.offset < 0) :
    ReadNewLines file f = none := by
  simp only [ReadNewLines, ReadNewLinesGen, if_pos h]

theorem ReadNewLines_eq (file : List Byte) (f : LogFile)
    (h : ¬ ((file.length : Int) - f.offset < 0)) :
    ReadNewLines file f =
      some (((file.drop f.pos).take (min ((file.length : Int) - f.offset).toNat
          (file.length - f.pos)) ++
          List.replicate (((file.length : Int) - f.offset).toNat -
            min ((file.length : Int) - f.offset).toNat (file.length - f.pos)) 0),
        ⟨f.pos + min ((file.length : Int) - f.offset).toNat (file.length - f.pos),
          (file.length : Int)⟩) := by
  simp only [ReadNewLines]
  rw [ReadNewLinesGen_eq file f _ false h]
  simp

/-- When the tracked offset already equals the file size, a read is a no-op:
empty buffer, state unchanged. -/
theorem ReadNewLines_noop (file : List Byte) (f : LogFile)
    (h : f.offset = (file.length : Int)) :
    ReadNewLines file f = some ([], f) := by
  obtain ⟨p, o⟩ := f
  simp only at h
  rw [ReadNewLines_eq file ⟨p, o⟩ (by simp only; omega)]
  have h0 : ((file.length : Int) - o).toNat = 0 := by omega
  simp [h0, h.symm]

theorem chainFrom_append {a b c : Nat} {rs : List (Nat × Nat)}
    (h : ChainFrom a rs b) (hbc : b ≤ c) : ChainFrom a (rs ++ [(b, c)]) c := by
  induction rs generalizing a with
  | nil => simp only [ChainFrom] at h; subst h; exact ⟨rfl, hbc, rfl⟩
  | cons hd tl ih =>
    obtain ⟨x, y⟩ := hd
    obtain ⟨hx, hay, htl⟩ := h
    exact ⟨hx, hay, ih htl⟩

theorem inv_initState : TraceInv initState := by
  refine ⟨rfl, by simp [initState], rfl, rfl⟩

theorem stepOp_read_of_inv (st : TraceState) (h : TraceInv st) :
    stepOp st .read =
      { st with
        cur := ⟨st.file.length, (st.file.length : Int)⟩
        outs := st.outs ++ [st.file.drop st.cur.pos]
        ranges := st.ranges ++ [(st.cur.pos, st.file.length)] } := by
  obtain ⟨hoff, hle, _, _⟩ := h
  have hread := ReadNewLines_eq st.file st.cur (by omega)
  have htn : ((st.file.length : Int) - st.cur.offset).toNat = st.file.length - st.cur.pos := by
    omega
  rw [htn] at hread
  simp only [min_self, Nat.sub_self, List.replicate_zero, List.append_nil] at hread
  have hbuf : (st.file.drop st.cur.pos).take (st.file.length - st.cur.pos) =
      st.file.drop st.cur.pos := by
    apply List.take_of_length_le
    simp [List.length_drop]
  rw [hbuf] at hread
  simp only [stepOp, hread, hoff]
  have hpos : st.cur.pos + (st.file.length - st.cur.pos) = st.file.length := by omega
  simp [hpos, Int.toNat_natCast]

theorem inv_step (st : TraceState) (op : Op) (h : TraceInv st) : TraceInv (stepOp st op) := by
  obtain ⟨hoff, hle, hout, hchain⟩ := h
  cases op with
  | app bs =>
    refine ⟨hoff, by simp only [stepOp]; simp; omega, ?_, hchain⟩
    simp only [stepOp]
    rw [List.take_append_of_le_length hle]
    exact hout
  | read =>
    rw [stepOp_read_of_inv st ⟨hoff, hle, hout, hchain⟩]
    refine ⟨by simp, by simp, ?_, ?_⟩
    · simp only [List.flatten_append, List.flatten_cons, List.flatten_nil,
        List.append_nil, hout]
      simp [List.take_append_drop]
    · exact chainFrom_append hchain hle

theorem inv_foldl (ops : List Op) (st : TraceState) (h : TraceInv st) :
    TraceInv (ops.foldl stepOp st) := by
  induction ops generalizing st with
  | nil => exact h
  | cons op ops ih => exact ih _ (inv_step st op h)

theorem foldl_file (ops : List Op) (st : TraceState) :
    (ops.foldl stepOp st).file = st.file ++ appendedBytes ops := by
  induction ops generalizing st with
  | nil => simp [appendedBytes]
  | cons op ops ih =>
    cases op with
    | app bs => simp [List.foldl_cons, ih, stepOp, appendedBytes]
    | read =>
      simp only [List.foldl_cons, ih, appendedBytes]
      congr 1
      simp only [stepOp]
      cases hr : ReadNewLines st.file st.cur with
      | none => rfl
      | some v => obtain ⟨buf, f'⟩ := v; rfl

theorem inv_runTrace (ops : List Op) : TraceInv (runTrace ops) :=
  inv_foldl ops initState inv_initState

theorem runTrace_file (ops : List Op) : (runTrace ops).file = appendedBytes ops := by
  simpa [initState] using foldl_file ops initState

/-- C1: For every sequence of appends to a tracked file, repeated calls to
`ReadNewLines` return disjoint, contiguous byte ranges whose concatenation
equals all bytes appended since the cursor was opened; no returned range
overlaps a previous one and no appended byte is skipped.  Stated over every
append/read trace from an initially empty tracked file, with a final read
collecting the remaining bytes: the buffers concatenate to exactly the
appended bytes, and the covered ranges tile `[0, total)` contiguously. -/
theorem readNewLines_ranges_partition_appends (ops : List Op) :
    (runTrace (ops ++ [Op.read])).outs.flatten = appendedBytes ops ∧
    ChainFrom 0 (runTrace (ops ++ [Op.read])).ranges
      (appendedBytes ops).length := by
  have hinv : TraceInv (runTrace ops) := inv_runTrace ops
  have hstep : runTrace (ops ++ [Op.read]) = stepOp (runTrace ops) .read := by
    simp [runTrace, List.foldl_append]
  obtain ⟨hoff, hle, hout, hchain⟩ := hinv
  have hfile : (runTrace ops).file = appendedBytes ops := runTrace_file ops
  rw [hstep, stepOp_read_of_inv _ ⟨hoff, hle, hout, hchain⟩]
  constructor
  · simp only [List.flatten_append, List.flatten_cons, List.flatten_nil,
      List.append_nil, hout, ← hfile]
    exact List.take_append_drop _ _
  · rw [← hfile]
    exact chainFrom_append hchain hle

/-- C2 counterexample: a short read.  The file holds 10 bytes, the cursor is
at offset 0, the underlying read returns only 4 bytes, yet the source's
`f.offset = stat.Size()` sets the offset to 10, not 4 — the offset advances
past the last byte actually read. -/
theorem offset_jump_on_short_read : ¬ OffsetAdvancesByBytesRead := by
  intro h
  have h4 : ((4 : Nat) : Int) ≤ ((List.replicate 10 7).length : Int) -
      (LogFile.mk 0 0).offset := by decide
  have h4' : (4 : Nat) ≤ (List.replicate 10 7).length - (LogFile.mk 0 0).pos := by
    decide
  have heq : ReadNewLinesGen (List.replicate 10 7) ⟨0, 0⟩ 4 false =
      some (some (List.replicate 4 7 ++ List.replicate 6 0), ⟨4, 10⟩) := by decide
  have := h (List.replicate 10 7) ⟨0, 0⟩ 4 false
      (some (List.replicate 4 7 ++ List.replicate 6 0)) ⟨4, 10⟩ h4 h4' heq
  simp at this

/-- C2 amended: the offset is mutated only by a `ReadNewLines` call that gets
past the initial stat and buffer allocation, and such a call sets it to the
freshly statted file size unconditionally — regardless of how many bytes the
underlying read returned and regardless of whether that read failed; the
handle position, by contrast, advances by exactly the bytes actually read. -/
theorem offset_set_to_statted_size (file : List Byte) (f : LogFile) (n : Nat)
    (rerr : Bool) (res : Option (List Byte)) (f' : LogFile)
    (h : ReadNewLinesGen file f n rerr = some (res, f')) :
    f'.offset = (file.length : Int) ∧ f'.pos = f.pos + n := by
  unfold ReadNewLinesGen at h
  by_cases hs : (file.length : Int) - f.offset < 0
  · rw [if_pos hs] at h
    exact absurd h (by simp)
  · rw [if_neg hs] at h
    cases rerr with
    | false =>
      simp only [Bool.false_eq_true, if_false, Option.some.injEq, Prod.mk.injEq] at h
      rw [← h.2]
      exact ⟨rfl, rfl⟩
    | true =>
      simp only [if_true, Option.some.injEq, Prod.mk.injEq] at h
      rw [← h.2]
      exact ⟨rfl, rfl⟩

/-- Witness for `offset_set_to_statted_size`: the concrete short, failing
read still sets the offset to the statted size 10. -/
theorem offset_set_to_statted_size_witness :
    (LogFile.mk 4 10).offset = ((List.replicate 10 7).length : Int) ∧
    (LogFile.mk 4 10).pos = (LogFile.mk 0 0).pos + 4 :=
  offset_set_to_statted_size (List.replicate 10 7) ⟨0, 0⟩ 4 true none ⟨4, 10⟩
    (by decide)

/-- C3 counterexample: with an empty file and tracked offset 1 the source
computes `bytesToRead = -1` and `make([]byte, -1)` panics (modelled `none`):
the shrunken-file case is not handled. -/
theorem shrink_panics : ¬ ShrinkHandledTotally := by
  intro h
  have := h [] ⟨0, 1⟩ (by decide)
  simp [ReadNewLines, ReadNewLinesGen] at this

/-- C3 amended: whenever the file's statted size is strictly smaller than the
tracked offset, `ReadNewLines` computes a negative `bytesToRead` and crashes
in `make([]byte, bytesToRead)` — the shrink case is never handled, for any
outcome of the underlying read. -/
theorem shrink_always_panics (file : List Byte) (f : LogFile) (n : Nat)
    (rerr : Bool) (h : (file.length : Int) < f.offset) :
    ReadNewLines file f = none ∧ ReadNewLinesGen file f n rerr = none := by
  refine ⟨ReadNewLines_shrink file f (by omega), ?_⟩
  simp [ReadNewLinesGen, show (file.length : Int) - f.offset < 0 by omega]

/-- Witness for `shrink_always_panics` at the concrete shrunken state. -/
theorem shrink_always_panics_witness :
    ReadNewLines [] ⟨0, 1⟩ = none ∧ ReadNewLinesGen [] ⟨0, 1⟩ 0 false = none :=
  shrink_always_panics [] ⟨0, 1⟩ 0 false (by decide)

/-- C9: calling `ReadNewLines` twice with no intervening write returns an
empty buffer on the second call and leaves the tracked cursor (offset and
handle position) unchanged; the second call succeeds, it is not an error. -/
theorem readNewLines_noop_idempotent (file : List Byte) (f f' : LogFile)
    (buf : List Byte) (h : ReadNewLines file f = some (buf, f')) :
    ReadNewLines file f' = some ([], f') := by
  have hoff : f'.offset = (file.length : Int) := by
    by_cases hs : (file.length : Int) - f.offset < 0
    · rw [ReadNewLines_shrink file f hs] at h
      exact absurd h (by simp)
    · rw [ReadNewLines_eq file f hs] at h
      simp only [Option.some.injEq, Prod.mk.injEq] at h
      rw [← h.2]
  exact ReadNewLines_noop file f' hoff

/-- Witness for `readNewLines_noop_idempotent`: after reading `[1,2,3]` from
offset 0 the second read returns the empty buffer and the same cursor. -/
theorem readNewLines_noop_idempotent_witness :
    ReadNewLines [1, 2, 3] ⟨3, 3⟩ = some ([], ⟨3, 3⟩) :=
  readNewLines_noop_idempotent [1, 2, 3] ⟨0, 0⟩ ⟨3, 3⟩ [1, 2, 3] (by decide)

theorem matchLen_le (r : RE) (s : List Byte) (n : Nat)
    (h : matchLen r s = some n) : n ≤ s.length := by
  unfold matchLen at h
  cases hm : matchK ((reSize r + 1) * (s.length + 2)) r s some with
  | none => rw [hm] at h; exact absurd h (by simp)
  | some rest =>
    rw [hm] at h
    simp only [Option.some.injEq] at h
    omega

theorem findAllAux_bounds (r : RE) (fuel : Nat) (s : List Byte) (i : Nat) :
    ∀ p ∈ findAllAux r fuel s i, i ≤ p.1 ∧ p.1 ≤ p.2 ∧ p.2 ≤ i + s.length := by
  induction fuel, s, i using findAllAux.induct r with
  | case1 s i =>
    intro p hp
    simp [findAllAux] at hp
  | case2 fuel i val hm =>
    intro p hp
    simp only [findAllAux, hm] at hp
    simp only [List.mem_singleton] at hp
    subst hp
    simp
  | case3 fuel i hm =>
    intro p hp
    simp [findAllAux, hm] at hp
  | case4 fuel b s i hm ih =>
    intro p hp
    simp only [findAllAux, hm] at hp
    have := ih p hp
    simp only [List.length_cons]
    omega
  | case5 fuel b s i hm ih =>
    intro p hp
    simp only [findAllAux, hm] at hp
    rcases List.mem_cons.mp hp with hp | hp
    · subst hp; simp
    · have := ih p hp
      simp only [List.length_cons]
      omega
  | case6 fuel b s i n hm ih =>
    intro p hp
    have hn : n + 1 ≤ (b :: s).length := matchLen_le r (b :: s) (n + 1) hm
    simp only [List.length_cons] at hn
    simp only [findAllAux, hm] at hp
    rcases List.mem_cons.mp hp with hp | hp
    · subst hp
      simp only [List.length_cons]
      omega
    · have := ih p hp
      simp only [List.length_drop] at this
      simp only [List.length_cons]
      omega

theorem findAllAux_chain (r : RE) (fuel : Nat) (s : List Byte) (i : Nat) :
    List.Chain' (fun x y : Nat × Nat => x.2 ≤ y.1 ∧ x.1 < y.1)
      (findAllAux r fuel s i) := by
  induction fuel, s, i using findAllAux.induct r with
  | case1 s i => simp [findAllAux]
  | case2 fuel i val hm => simp [findAllAux, hm]
  | case3 fuel i hm => simp [findAllAux, hm]
  | case4 fuel b s i hm ih =>
    simp only [findAllAux, hm]
    exact ih
  | case5 fuel b s i hm ih =>
    simp only [findAllAux, hm]
    rw [List.chain'_cons']
    refine ⟨?_, ih⟩
    intro y hy
    have hb := findAllAux_bounds r fuel s (i + 1) y (List.mem_of_mem_head? hy)
    exact ⟨by omega, by omega⟩
  | case6 fuel b s i n hm ih =>
    simp only [findAllAux, hm]
    rw [List.chain'_cons']
    refine ⟨?_, ih⟩
    intro y hy
    have hb := findAllAux_bounds r fuel (s.drop n) (i + (n + 1)) y (List.mem_of_mem_head? hy)
    exact ⟨by omega, by omega⟩

theorem foldl_appendEvent (iter : List (String × EventCfg)) (acc : List Event) :
    iter.foldl appendEvent acc = acc ++ iter.filterMap eventOfCfg := by
  induction iter generalizing acc with
  | nil => simp
  | cons kv iter ih =>
    obtain ⟨key, cfg⟩ := kv
    simp only [List.foldl_cons, List.filterMap_cons]
    cases hs : cfg.Src with
    | none => simp [appendEvent, eventOfCfg, hs, ih]
    | some re =>
      cases hd : cfg.Dest with
      | none => simp [appendEvent, eventOfCfg, hs, hd, ih]
      | some tpl => simp [appendEvent, eventOfCfg, hs, hd, ih]

/-- The active rule list is the validated entries of the iteration
sequence, in iteration order. -/
theorem createEventList_eq (iter : List (String × EventCfg)) :
    createEventList iter = iter.filterMap eventOfCfg := by
  simpa using foldl_appendEvent iter []

/-- Elimination form of `handleWriteGen`: any completed call decomposes into
the underlying read outcome and the rule pass over the resulting buffer. -/
theorem handleWriteGen_some_elim (events : List Event) (file : List Byte)
    (f : LogFile) (n : Nat) (rerr : Bool) (r : HWResult)
    (h : handleWriteGen events file f n rerr = some r) :
    ∃ res f', ReadNewLinesGen file f n rerr = some (res, f') ∧
      r = ⟨events.map (·.EventType),
           events.map fun ev => (ev.EventType, runRule ev (res.getD [])),
           f', res.isNone⟩ := by
  unfold handleWriteGen at h
  cases hm : ReadNewLinesGen file f n rerr with
  | none => rw [hm] at h; exact absurd h (by simp)
  | some v =>
    obtain ⟨res, f'⟩ := v
    rw [hm] at h
    simp only [Option.some.injEq] at h
    exact ⟨res, f', rfl, h.symm⟩

/-- C4 counterexample: `handleWrite` discards the read error
(`lines, _ := file.ReadNewLines()`) — with one configured rule and a failing
read, the rule loop is still entered (the rule is invoked over the nil
buffer) instead of the step returning. -/
theorem read_failure_still_runs_rules : ¬ ReadFailureSkipsRules := by
  intro h
  have heq : handleWriteGen [errEv] [] ⟨0, 0⟩ 0 true =
      some ⟨["err"], [("err", [])], ⟨0, 0⟩, true⟩ := by decide
  have := h [errEv] [] ⟨0, 0⟩ 0 true ⟨["err"], [("err", [])], ⟨0, 0⟩, true⟩ heq rfl
  exact absurd this (by simp)

/-- C4 amended: the extraction step never checks the read error; every rule
of the slice is invoked on every completed `handleWrite` call, and when the
read failed the rules are run over the nil (empty) buffer. -/
theorem rules_run_despite_read_failure (events : List Event) (file : List Byte)
    (f : LogFile) (n : Nat) (rerr : Bool) (r : HWResult)
    (h : handleWriteGen events file f n rerr = some r) :
    r.invoked = events.map (·.EventType) ∧
    (r.readFailed = true →
      r.results = events.map fun ev => (ev.EventType, runRule ev [])) := by
  obtain ⟨res, f', hm, rfl⟩ := handleWriteGen_some_elim events file f n rerr r h
  refine ⟨rfl, ?_⟩
  intro hrf
  cases res with
  | none => rfl
  | some buf => simp at hrf

/-- Witness for `rules_run_despite_read_failure` at the failing read of the
counterexample. -/
theorem rules_run_despite_read_failure_witness :
    (HWResult.mk ["err"] [("err", [])] ⟨0, 0⟩ true).invoked =
      [errEv].map (·.EventType) ∧
    ((HWResult.mk ["err"] [("err", [])] ⟨0, 0⟩ true).readFailed = true →
      (HWResult.mk ["err"] [("err", [])] ⟨0, 0⟩ true).results =
        [errEv].map fun ev => (ev.EventType, runRule ev [])) :=
  rules_run_despite_read_failure [errEv] [] ⟨0, 0⟩ 0 true _ (by decide)

/-- C5 counterexample: two iteration orders of the same two-entry map yield
the two rules in different orders — `createEventList` ranges over a Go map,
whose iteration order is unspecified and varies across runs, so the rules
are not invoked in a configured, run-independent order. -/
theorem rule_order_depends_on_iteration : ¬ RuleOrderDeterministic := by
  intro h
  have hperm : [("a", cfgA), ("b", cfgB)].Perm [("b", cfgB), ("a", cfgA)] := by
    decide
  have := h _ _ hperm
  exact absurd this (by decide)

/-- C5 amended: on every completed extraction step — including one whose
buffer is empty — every active rule (exactly the config entries that
validated, in map-iteration order) is invoked, in the order of the built
slice; that order is fixed for the life of the run but is the map-iteration
order, not a configured one. -/
theorem rules_invoked_in_iteration_order (iter : List (String × EventCfg))
    (file : List Byte) (f : LogFile) (n : Nat) (r : HWResult)
    (h : handleWriteGen (createEventList iter) file f n false = some r) :
    r.invoked = (iter.filterMap eventOfCfg).map (·.EventType) ∧
    r.results.length = (iter.filterMap eventOfCfg).length := by
  obtain ⟨res, f', hm, rfl⟩ :=
    handleWriteGen_some_elim (createEventList iter) file f n false r h
  rw [createEventList_eq]
  exact ⟨rfl, by simp⟩

/-- Witness for `rules_invoked_in_iteration_order`: both configured rules
are invoked, in slice order, over an empty read. -/
theorem rules_invoked_in_iteration_order_witness :
    (HWResult.mk ["A", "B"]
        [("A", [MatchResult.payload [] true]), ("B", [MatchResult.payload [] true])]
        ⟨0, 0⟩ false).invoked =
      ([("a", cfgA), ("b", cfgB)].filterMap eventOfCfg).map (·.EventType) ∧
    (HWResult.mk ["A", "B"]
        [("A", [MatchResult.payload [] true]), ("B", [MatchResult.payload [] true])]
        ⟨0, 0⟩ false).results.length =
      ([("a", cfgA), ("b", cfgB)].filterMap eventOfCfg).length :=
  rules_invoked_in_iteration_order [("a", cfgA), ("b", cfgB)] [] ⟨0, 0⟩ 0 _
    (by decide)

/-- C6: extraction finds all non-overlapping matches of the compiled
pattern over the buffer — one result per match, matches within the buffer's
bounds, in strictly left-to-right non-overlapping order — and on the spec's
own example (`ERROR: (\w+)` over `ERROR: disk\nERROR: net\n`) it yields the
two rendered outputs, one per match, not only the first. -/
theorem extraction_finds_all_matches :
    (∀ (ev : Event) (lines : List Byte),
      (runRule ev lines).length = (findAllMatches ev.Regex lines).length) ∧
    (∀ (r : RE) (buf : List Byte), ∀ p ∈ findAllMatches r buf,
      p.1 ≤ p.2 ∧ p.2 ≤ buf.length) ∧
    (∀ (r : RE) (buf : List Byte),
      List.Chain' (fun x y : Nat × Nat => x.2 ≤ y.1 ∧ x.1 < y.1)
        (findAllMatches r buf)) ∧
    runRule errEv errBuf =
      [.payload [69, 82, 82, 79, 82, 58, 32, 100, 105, 115, 107] true,
       .payload [69, 82, 82, 79, 82, 58, 32, 110, 101, 116] true] := by
  refine ⟨?_, ?_, ?_, by decide⟩
  · intro ev lines
    simp [runRule]
  · intro r buf p hp
    have hb := findAllAux_bounds r (buf.length + 1) buf 0 p hp
    exact ⟨hb.2.1, by omega⟩
  · intro r buf
    exact findAllAux_chain r (buf.length + 1) buf 0

/-- Witness for `extraction_finds_all_matches` at the second match of the
spec's example. -/
theorem extraction_finds_all_matches_witness :
    (12, 22) ∈ findAllMatches errPattern errBuf ∧
    ((12, 22).1 ≤ (12, 22).2 ∧ (12, 22).2 ≤ errBuf.length) :=
  ⟨by decide, extraction_finds_all_matches.2.1 errPattern errBuf (12, 22) (by decide)⟩

/-- C7 counterexample: the source ignores the error of `t.Execute(&tpl, nil)`
and logs `tpl.String()` regardless, so a match whose template parses but
fails during rendering is not skipped: its partial output (here the literal
prefix `pre-`) is logged as a payload and the failure is never reported. -/
theorem render_failure_not_skipped : ¬ FailedMatchSkipped := by
  intro h
  exact h renderFailEv [70, 111, 111] [112, 114, 101, 45] (by decide)

/-- C7 amended: a template that fails to parse for a specific match is
reported and that match alone skipped; a template that parses but fails
during rendering is not skipped — its partial output is logged as the
payload and the error discarded.  In both cases processing is isolated:
every match of the rule is processed to its own result, every rule of the
slice is processed, and in the concrete 3-match scenario a parse failure on
match 2 still yields the rendered outputs of matches 1 and 3. -/
theorem match_failures_isolated :
    (∀ (ev : Event) (lines : List Byte), ∀ m ∈ findAllMatches ev.Regex lines,
      processMatch ev lines m ∈ runRule ev lines) ∧
    (∀ (events : List Event) (file : List Byte) (f : LogFile) (n : Nat)
       (rerr : Bool) (r : HWResult), handleWriteGen events file f n rerr = some r →
      r.results.length = events.length) ∧
    runRule demoEv demoBuf =
      [.payload timestampBytes true, .parseFailure, .payload timestampBytes true] ∧
    payloadsOf (runRule demoEv demoBuf) = [timestampBytes, timestampBytes] := by
  refine ⟨?_, ?_, by decide, by decide⟩
  · intro ev lines m hm
    exact List.mem_map_of_mem _ hm
  · intro events file f n rerr r h
    obtain ⟨res, f', hm, rfl⟩ := handleWriteGen_some_elim events file f n rerr r h
    simp

/-- Witness for `match_failures_isolated`: the match after the failing one
is still processed and its rendered result recorded. -/
theorem match_failures_isolated_witness :
    (16, 25) ∈ findAllMatches demoEv.Regex demoBuf ∧
    processMatch demoEv demoBuf (16, 25) ∈ runRule demoEv demoBuf :=
  ⟨by decide, match_failures_isolated.1 demoEv demoBuf (16, 25) (by decide)⟩

/-- C8 counterexample: with the explicit file `a.txt`, no directories and
the global filter `\.log$`, the registry is empty — `createLogFileList`
applies the compiled filter to the combined list, explicit files included. -/
theorem explicit_file_filtered_out : ¬ ExplicitFilesBypassFilter := by
  intro h
  have := h ["a.txt"] [] endsWithDotLog (fun _ => true) "a.txt" (by simp) rfl
  rw [show createLogFileList ["a.txt"] [] (some endsWithDotLog) (fun _ => true) =
      [] from by decide] at this
  exact absurd this (by simp)

/-- C8 amended: when the global include pattern compiles it filters the
combined list of explicit files and enumerated directory entries — a path
(explicit or enumerated) is a registry key exactly when it is listed, passes
the filter and opens; without a compiled filter only listing and opening
matter.  The spec's directory scenario (`a.log`, `b.log`, `a.txt` with
filter `\.log$`) still yields exactly `a.log` and `b.log`. -/
theorem registry_filter_applies_to_combined :
    (∀ (files dirFiles : List String) (p : String → Bool)
       (openable : String → Bool) (s : String),
      s ∈ createLogFileList files dirFiles (some p) openable ↔
        s ∈ files ++ dirFiles ∧ p s = true ∧ openable s = true) ∧
    (∀ (files dirFiles : List String) (openable : String → Bool) (s : String),
      s ∈ createLogFileList files dirFiles none openable ↔
        s ∈ files ++ dirFiles ∧ openable s = true) ∧
    createLogFileList [] ["a.log", "b.log", "a.txt"] (some endsWithDotLog)
      (fun _ => true) = ["a.log", "b.log"] := by
  refine ⟨?_, ?_, by decide⟩
  · intro files dirFiles p openable s
    simp only [createLogFileList, List.mem_dedup, List.mem_filter,
      List.mem_append]
    tauto
  · intro files dirFiles openable s
    simp only [createLogFileList, List.mem_dedup, List.mem_filter,
      List.mem_append]

/-- C10: whenever `ReadNewLines` succeeds, the returned buffer's length is
exactly the statted size minus the prior offset even when the underlying
read returned fewer bytes: the tail beyond the bytes actually read is the
zero fill `make` put there, and the extraction rules then scan exactly this
padded buffer. -/
theorem short_read_zero_padded (file : List Byte) (f : LogFile) (n : Nat)
    (buf : List Byte) (f' : LogFile) (events : List Event) (r : HWResult)
    (hn : n ≤ file.length - f.pos)
    (hbtr : (n : Int) ≤ (file.length : Int) - f.offset)
    (h : ReadNewLinesGen file f n false = some (some buf, f'))
    (hw : handleWriteGen events file f n false = some r) :
    buf.length = ((file.length : Int) - f.offset).toNat ∧
    buf.drop n = List.replicate (((file.length : Int) - f.offset).toNat - n) 0 ∧
    r.results = events.map fun ev => (ev.EventType, runRule ev buf) := by
  have hs : ¬ ((file.length : Int) - f.offset < 0) := by omega
  have h0 := h
  rw [ReadNewLinesGen_eq file f n false hs] at h0
  simp only [Bool.false_eq_true, if_false, Option.some.injEq, Prod.mk.injEq] at h0
  obtain ⟨hbuf, hf'⟩ := h0
  have hlen1 : ((file.drop f.pos).take n).length = n := by
    simp only [List.length_take, List.length_drop]
    omega
  have hnbtr : n ≤ ((file.length : Int) - f.offset).toNat := by omega
  refine ⟨?_, ?_, ?_⟩
  · rw [← hbuf]
    simp only [List.length_append, hlen1, List.length_replicate]
    omega
  · rw [← hbuf]
    exact List.drop_left' hlen1
  · obtain ⟨res, f'', hm, rfl⟩ :=
      handleWriteGen_some_elim events file f n false r hw
    rw [h] at hm
    simp only [Option.some.injEq, Prod.mk.injEq] at hm
    rw [← hm.1]
    rfl

/-- Witness for `short_read_zero_padded`: a 10-byte file read short (4 of 10
bytes) yields the 10-byte buffer `[1,2,3,4,0,0,0,0,0,0]`, and the rule pass
scans that buffer. -/
theorem short_read_zero_padded_witness :
    ([1, 2, 3, 4, 0, 0, 0, 0, 0, 0] : List Byte).length =
      ((([1, 2, 3, 4, 5, 6, 7, 8, 9, 10] : List Byte).length : Int) -
        (LogFile.mk 0 0).offset).toNat ∧
    ([1, 2, 3, 4, 0, 0, 0, 0, 0, 0] : List Byte).drop 4 =
      List.replicate (((([1, 2, 3, 4, 5, 6, 7, 8, 9, 10] : List Byte).length : Int) -
        (LogFile.mk 0 0).offset).toNat - 4) 0 ∧
    (HWResult.mk ["err"] [("err", [])] ⟨4, 10⟩ false).results =
      [errEv].map fun ev =>
        (ev.EventType, runRule ev [1, 2, 3, 4, 0, 0, 0, 0, 0, 0]) :=
  short_read_zero_padded [1, 2, 3, 4, 5, 6, 7, 8, 9, 10] ⟨0, 0⟩ 4
    [1, 2, 3, 4, 0, 0, 0, 0, 0, 0] ⟨4, 10⟩ [errEv]
    (HWResult.mk ["err"] [("err", [])] ⟨4, 10⟩ false)
    (by decide) (by decide) (by decide) (by decide)
